import Mathlib

/-!
Verification of the discrete-enumeration core of `pyro/infer/enum.py`.

The embedding models Python dictionaries of inference directives as
association lists of `PyVal` (a small universe of Python scalar values with
Python equality semantics), sites as records, and traces as ordered lists of
sites keyed by their `name` field.  External collaborators (the poutine
interception machinery, `Trace.copy`, `check_model_guide_match`,
`check_site_shape`, `prune_subsample_sites`, `infer_config`) are not under
`src/` and are modelled from the specification; each such definition carries a
doc comment saying so.
-/

/-- A Python scalar value as it occurs in `infer` dictionaries and in the
arguments of `config_enumerate`: booleans, integers, strings and `None`. -/
inductive PyVal where
  | bool (b : Bool)
  | int (n : Int)
  | str (s : String)
  | none
deriving DecidableEq

/-- Python `==` on `PyVal`: `True == 1`, `False == 0`, values of unrelated
types compare unequal, `None` equals only `None`. -/
def pyEq : PyVal → PyVal → Bool
  | PyVal.bool a, PyVal.bool b => a == b
  | PyVal.bool a, PyVal.int n => (if a then (1 : Int) else 0) == n
  | PyVal.int n, PyVal.bool a => n == (if a then (1 : Int) else 0)
  | PyVal.int m, PyVal.int n => m == n
  | PyVal.str s, PyVal.str t => s == t
  | PyVal.none, PyVal.none => true
  | _, _ => false

/-- Python `x in l` membership test, using Python equality. -/
def pyIn (x : PyVal) (l : List PyVal) : Bool :=
  l.any (fun y => pyEq x y)

/-- An `infer` dictionary: an ordered association list from string keys to
Python values, with the key set kept unique by `dictSet`. -/
abbrev Infer := List (String × PyVal)

/-- Dictionary lookup (Python `d[k]` / `d.get(k)` without default). -/
def dictGet : Infer → String → Option PyVal
  | [], _ => Option.none
  | (k, v) :: rest, key => if k == key then some v else dictGet rest key

/-- Python `d.get(key, dflt)`. -/
def dictGetD (d : Infer) (key : String) (dflt : PyVal) : PyVal :=
  (dictGet d key).getD dflt

/-- Python `d[key] = v`: replace the binding of `key` if present, else append. -/
def dictSet : Infer → String → PyVal → Infer
  | [], key, v => [(key, v)]
  | (k, w) :: rest, key, v =>
    if k == key then (key, v) :: rest else (k, w) :: dictSet rest key v

/-- Python `d.update(u)`: set every binding of `u` in `d`, in order. -/
def dictUpdate : Infer → Infer → Infer
  | d, [] => d
  | d, (k, v) :: rest => dictUpdate (dictSet d k v) rest

/-- The string key "enumerate" of an `infer` dictionary. -/
def enumKey : String := "enumerate"

/-- The string key "expand" of an `infer` dictionary. -/
def expandKey : String := "expand"

/-- The string key "_enum_total" of an `infer` dictionary. -/
def totalKey : String := "_enum_total"

/-- The site-type tag "sample". -/
def sampleTag : String := "sample"

/-- The strategy string "sequential". -/
def seqStr : String := "sequential"

/-- The strategy string "parallel". -/
def parStr : String := "parallel"

/-- A tensor value: an opaque payload together with the number of tensor
dimensions of its shape (the only shape information this core inspects). -/
structure Val where
  data : Nat
  dims : Nat
deriving DecidableEq

/-- A distribution object, opaque to this core except for the narrow
interface of section 6 of the spec: `enumerate_support` (receiving the
Python value of the site's expand directive), the capability flag
`has_enumerate_support`, an auxiliary-subsampling marker used by trace
pruning, a deterministic `sample` outcome, and a log-probability function. -/
structure PDist where
  enumerate_support : PyVal → List Val
  has_enumerate_support : Bool
  is_subsample : Bool
  sample : Val
  log_prob : Val → Int

/-- One probabilistic site message: the fields of the Python site dictionary
that this core reads or writes. -/
structure Site where
  name : String
  stype : String
  is_observed : Bool
  fn : PDist
  value : Option Val
  infer : Infer
  log_prob : Option Int
  score_parts : Option Int

/-- An execution trace: the ordered record of sites of one execution, keyed
by the `name` field of each site. -/
abbrev Trace := List Site

/-- Python `name in trace`: whether a site of this name was recorded. -/
def traceContains (t : Trace) (n : String) : Bool :=
  t.any (fun s => s.name == n)

/-- Look up the site recorded under a name. -/
def traceFind (t : Trace) (n : String) : Option Site :=
  t.find? (fun s => s.name == n)

/-- Modelled from the spec: `EXPAND_DEFAULT`, imported by the source from
`pyro.poutine.enumerate_messenger`, which is not under `src/`; the default
value of the expand directive. -/
def EXPAND_DEFAULT : PyVal := PyVal.bool true

/-- The escape predicate of `enum.py`: suspend iff the message is a sample
site, not observed, its enumerate directive is exactly "sequential", and its
name is not already recorded in the trace. -/
def iter_discrete_escape (trace : Trace) (msg : Site) : Bool :=
  (msg.stype == sampleTag) &&
  (!msg.is_observed) &&
  pyEq (dictGetD msg.infer enumKey PyVal.none) (PyVal.str seqStr) &&
  (!(traceContains trace msg.name))

/-- The extend generator of `enum.py`: one forked trace per element of the
distribution's enumerated support, each a copy of the input trace extended
with a copy of the site carrying that support value and an `_enum_total`
annotation. -/
def iter_discrete_extend (trace : Trace) (site : Site) : List Trace :=
  let values := site.fn.enumerate_support (dictGetD site.infer expandKey EXPAND_DEFAULT)
  values.map (fun value =>
    trace ++ [{ site with
      infer := dictSet site.infer totalKey (PyVal.int (Int.ofNat values.length)),
      value := some value }])

/-- `pyEq` against a string literal holds exactly for that string. -/
theorem pyEq_str_iff (x : PyVal) (s : String) :
    pyEq x (PyVal.str s) = true ↔ x = PyVal.str s := by
  cases x <;> simp [pyEq]

/-- A `get` with default `None` equals a string iff the key is bound to it. -/
theorem dictGetD_none_str (d : Infer) (key : String) (s : String) :
    pyEq (dictGetD d key PyVal.none) (PyVal.str s) = true ↔
      dictGet d key = some (PyVal.str s) := by
  cases h : dictGet d key with
  | none => simp [dictGetD, h, pyEq]
  | some v => simp [dictGetD, h, pyEq_str_iff]

/-- Claim C1: `iter_discrete_escape` returns true iff all four conditions
hold: the message is a sample-typed site, it is not observed, its enumerate
directive is bound to exactly the string "sequential" (so "parallel", `None`
or an absent key never escape), and its name is not already a site of the
trace. -/
theorem iter_discrete_escape_iff (t : Trace) (m : Site) :
    iter_discrete_escape t m = true ↔
      (m.stype = sampleTag ∧ m.is_observed = false ∧
       dictGet m.infer enumKey = some (PyVal.str seqStr) ∧
       traceContains t m.name = false) := by
  unfold iter_discrete_escape
  rw [Bool.and_eq_true, Bool.and_eq_true, Bool.and_eq_true]
  rw [dictGetD_none_str]
  simp [Bool.not_eq_true', and_assoc]

/-- Claim C2: `iter_discrete_extend` yields exactly one trace per element of
`enumerate_support` (called with the site's expand directive, defaulting to
`EXPAND_DEFAULT`), in support order; the i-th yielded trace is the input
trace extended, under the site's original name (the `name` field of the
copied site is unchanged), with a copy of the site whose value is the i-th
support element and whose infer dictionary is a copy extended with
`_enum_total` bound to the support size. -/
theorem iter_discrete_extend_spec (t : Trace) (s : Site) :
    (iter_discrete_extend t s).length =
      (s.fn.enumerate_support (dictGetD s.infer expandKey EXPAND_DEFAULT)).length ∧
    ∀ i : Nat,
      (iter_discrete_extend t s)[i]? =
        ((s.fn.enumerate_support (dictGetD s.infer expandKey EXPAND_DEFAULT))[i]?).map
          (fun v => t ++ [{ s with
            infer := dictSet s.infer totalKey
              (PyVal.int (Int.ofNat
                (s.fn.enumerate_support (dictGetD s.infer expandKey EXPAND_DEFAULT)).length)),
            value := some v }]) := by
  constructor
  · simp [iter_discrete_extend]
  · intro i
    simp [iter_discrete_extend]

/-- A site declaration of a straight-line stochastic program: the programs
this development runs consist of an ordered list of named probabilistic
sites, which is the shape of every program the claims quantify over. -/
structure SiteDecl where
  name : String
  stype : String
  is_observed : Bool
  fn : PDist
  infer : Infer

/-- A straight-line stochastic program. -/
abbrev Prog := List SiteDecl

/-- The site message emitted when a declaration is executed, before the site
is resolved. -/
def declMsg (d : SiteDecl) : Site :=
  { name := d.name, stype := d.stype, is_observed := d.is_observed, fn := d.fn,
    value := Option.none, infer := d.infer,
    log_prob := Option.none, score_parts := Option.none }

/-- The configuration function produced by `_config_enumerate` of `enum.py`:
empty for non-sample or observed sites and for distributions without
enumerate support; otherwise the enumerate and expand directives, keeping any
values already present in the site's `infer` dictionary. -/
def _config_enumerate (default expand : PyVal) (site : Site) : Infer :=
  if (site.stype != sampleTag) || site.is_observed then []
  else if !site.fn.has_enumerate_support then []
  else [(enumKey, dictGetD site.infer enumKey default),
        (expandKey, dictGetD site.infer expandKey expand)]

/-- Modelled from the spec: `poutine.infer_config`, which is not under
`src/`; it applies the configuration function to each site message and merges
the returned directive dictionary into that site's `infer` dictionary (the
site is "annotated with the requested strategy and expand flag"). -/
def infer_config_site (cfg : Site → Infer) (d : SiteDecl) : SiteDecl :=
  { d with infer := dictUpdate d.infer (cfg (declMsg d)) }

/-- Modelled from the spec: the transformed program returned by
`poutine.infer_config`, annotating every site. -/
def infer_config (p : Prog) (cfg : Site → Infer) : Prog :=
  p.map (infer_config_site cfg)

/-- The error message of `config_enumerate` for an invalid default value. -/
def invalidDefaultMsg : String := "Invalid default value"

/-- The error message of `config_enumerate` for an invalid expand value. -/
def invalidExpandMsg : String := "Invalid expand value"

/-- The result of `config_enumerate`: either the curried configurator
returned when no guide is supplied (the Python lambda capturing the requested
default and expand), or the transformed guide. -/
inductive CEResult where
  | curried (default expand : PyVal)
  | transformed (p : Prog)

/-- The `config_enumerate` entry point of `enum.py`: validate the requested
default strategy and expand flag with Python membership tests, then either
curry (guide absent) or transform the guide through `infer_config`. -/
def config_enumerate (guide : Option Prog) (default expand : PyVal) :
    Except String CEResult :=
  if !(pyIn default [PyVal.str seqStr, PyVal.str parStr, PyVal.none]) then
    Except.error invalidDefaultMsg
  else if !(pyIn expand [PyVal.bool true, PyVal.bool false]) then
    Except.error invalidExpandMsg
  else
    match guide with
    | Option.none => Except.ok (CEResult.curried default expand)
    | some g =>
      Except.ok (CEResult.transformed (infer_config g (_config_enumerate default expand)))

/-- Setting a key makes it readable. -/
theorem dictGet_dictSet_same (d : Infer) (k : String) (v : PyVal) :
    dictGet (dictSet d k v) k = some v := by
  induction d with
  | nil => simp [dictSet, dictGet]
  | cons p rest ih =>
    obtain ⟨k1, v1⟩ := p
    by_cases h : k1 = k
    · simp [dictSet, dictGet, h]
    · simp [dictSet, dictGet, h, ih]

/-- Setting one key leaves the bindings of other keys unchanged. -/
theorem dictGet_dictSet_ne (d : Infer) (k k2 : String) (v : PyVal) (h : k ≠ k2) :
    dictGet (dictSet d k v) k2 = dictGet d k2 := by
  induction d with
  | nil => simp [dictSet, dictGet, h]
  | cons p rest ih =>
    obtain ⟨k1, v1⟩ := p
    by_cases h1 : k1 = k
    · simp [dictSet, dictGet, h1, h]
    · by_cases h2 : k1 = k2
      · simp [dictSet, dictGet, h1, h2, Ne.symm h]
      · simp [dictSet, dictGet, h1, h2, ih]

/-- Re-setting a key to its current value is a no-op. -/
theorem dictSet_noop (d : Infer) (k : String) (v : PyVal)
    (h : dictGet d k = some v) : dictSet d k v = d := by
  induction d with
  | nil => simp [dictGet] at h
  | cons p rest ih =>
    obtain ⟨k1, v1⟩ := p
    by_cases h1 : k1 = k
    · subst h1
      simp [dictGet] at h
      simp [dictSet, h]
    · simp [dictGet, h1] at h
      simp [dictSet, h1, ih h]

/-- Claim C8: called with a default strategy outside the set containing
"sequential", "parallel" and None (under Python equality), or with an expand
value failing the membership test in the list of True and False,
`config_enumerate` returns the configuration error synchronously, for every
guide argument — also when the guide is absent, so the error precedes any
curried configurator and any program transformation. -/
theorem config_enumerate_invalid (guide : Option Prog) (default expand : PyVal) :
    (pyIn default [PyVal.str seqStr, PyVal.str parStr, PyVal.none] = false →
      config_enumerate guide default expand = Except.error invalidDefaultMsg) ∧
    (pyIn expand [PyVal.bool true, PyVal.bool false] = false →
      pyIn default [PyVal.str seqStr, PyVal.str parStr, PyVal.none] = true →
      config_enumerate guide default expand = Except.error invalidExpandMsg) := by
  constructor
  · intro h
    simp [config_enumerate, h]
  · intro h h2
    simp [config_enumerate, h, h2]

/-- A default strategy value that is not a valid strategy. -/
def bogusStr : String := "bogus"

/-- Witness for claim C8: the concrete call with default "bogus" hits the
first validity test and raises. -/
theorem config_enumerate_invalid_witness :
    pyIn (PyVal.str bogusStr) [PyVal.str seqStr, PyVal.str parStr, PyVal.none] = false ∧
    config_enumerate Option.none (PyVal.str bogusStr) (PyVal.bool true) =
      Except.error invalidDefaultMsg :=
  ⟨by decide,
   (config_enumerate_invalid Option.none (PyVal.str bogusStr) (PyVal.bool true)).1 (by decide)⟩

/-- Claim C10: the integers 1 and 0 pass the expand validity test of
`config_enumerate` because the membership test in the list of True and False
uses Python equality, which equates 1 with True and 0 with False; hence
`config_enumerate` with expand 1 (or 0) is accepted and returns without an
error for every guide argument. -/
theorem config_enumerate_accepts_int_expand (guide : Option Prog) :
    pyEq (PyVal.int 1) (PyVal.bool true) = true ∧
    pyEq (PyVal.int 0) (PyVal.bool false) = true ∧
    pyIn (PyVal.int 1) [PyVal.bool true, PyVal.bool false] = true ∧
    pyIn (PyVal.int 0) [PyVal.bool true, PyVal.bool false] = true ∧
    (∃ r, config_enumerate guide (PyVal.str seqStr) (PyVal.int 1) = Except.ok r) ∧
    (∃ r, config_enumerate guide (PyVal.str seqStr) (PyVal.int 0) = Except.ok r) := by
  refine ⟨by decide, by decide, by decide, by decide, ?_, ?_⟩
  · cases guide with
    | none => exact ⟨_, rfl⟩
    | some g => exact ⟨_, rfl⟩
  · cases guide with
    | none => exact ⟨_, rfl⟩
    | some g => exact ⟨_, rfl⟩

/-- A two-point discrete distribution with enumerate support, used as the
concrete distribution of the test programs. -/
def bern : PDist :=
  { enumerate_support := fun _ => [⟨0, 0⟩, ⟨1, 0⟩],
    has_enumerate_support := true,
    is_subsample := false,
    sample := ⟨0, 0⟩,
    log_prob := fun _ => 0 }

/-- A site name. -/
def aName : String := "a"

/-- A sample site carrying an explicit enumerate directive ("parallel") but
no expand directive. -/
def siteC9 : SiteDecl :=
  { name := aName, stype := sampleTag, is_observed := false, fn := bern,
    infer := [(enumKey, PyVal.str parStr)] }

/-- Claim C9 counterexample: a site with a pre-existing explicit enumerate
directive is not left untouched by the configurator — an expand entry is
added to its `infer` dictionary (its enumerate value, however, survives). -/
theorem config_enumerate_not_untouched :
    dictGet siteC9.infer enumKey = some (PyVal.str parStr) ∧
    (infer_config_site (_config_enumerate (PyVal.str seqStr) (PyVal.bool true)) siteC9).infer ≠
      siteC9.infer := by
  constructor
  · decide
  · decide

/-- Applying the configurator twice leaves each site as after the first
application, whatever defaults the second application requests. -/
theorem infer_config_site_stable (d : SiteDecl) (d1 e1 d2 e2 : PyVal) :
    infer_config_site (_config_enumerate d2 e2) (infer_config_site (_config_enumerate d1 e1) d) =
      infer_config_site (_config_enumerate d1 e1) d := by
  by_cases h1 : ((d.stype != sampleTag) || d.is_observed) = true
  · have hd : infer_config_site (_config_enumerate d1 e1) d = d := by
      simp [infer_config_site, _config_enumerate, declMsg, h1, dictUpdate]
    rw [hd]
    simp [infer_config_site, _config_enumerate, declMsg, h1, dictUpdate]
  · by_cases h3 : d.fn.has_enumerate_support = true
    · have hred : infer_config_site (_config_enumerate d1 e1) d =
        { d with infer := (dictSet (dictSet d.infer enumKey (dictGetD d.infer enumKey d1))
            expandKey (dictGetD d.infer expandKey e1)) } := by
        simp [infer_config_site, _config_enumerate, declMsg, h1, h3, dictUpdate]
      rw [hred]
      have hv : dictGet (dictSet (dictSet d.infer enumKey (dictGetD d.infer enumKey d1))
          expandKey (dictGetD d.infer expandKey e1)) enumKey =
          some (dictGetD d.infer enumKey d1) := by
        rw [dictGet_dictSet_ne _ _ _ _ (by decide)]
        exact dictGet_dictSet_same _ _ _
      have hw : dictGet (dictSet (dictSet d.infer enumKey (dictGetD d.infer enumKey d1))
          expandKey (dictGetD d.infer expandKey e1)) expandKey =
          some (dictGetD d.infer expandKey e1) :=
        dictGet_dictSet_same _ _ _
      have hgv : dictGetD (dictSet (dictSet d.infer enumKey (dictGetD d.infer enumKey d1))
          expandKey (dictGetD d.infer expandKey e1)) enumKey d2 =
          dictGetD d.infer enumKey d1 := by
        unfold dictGetD at hv ⊢
        rw [hv]
        rfl
      have hgw : dictGetD (dictSet (dictSet d.infer enumKey (dictGetD d.infer enumKey d1))
          expandKey (dictGetD d.infer expandKey e1)) expandKey e2 =
          dictGetD d.infer expandKey e1 := by
        unfold dictGetD at hw ⊢
        rw [hw]
        rfl
      simp [infer_config_site, _config_enumerate, declMsg, h1, h3, dictUpdate, hgv, hgw]
      rw [dictSet_noop _ _ _ hv, dictSet_noop _ _ _ hw]
    · have hd : infer_config_site (_config_enumerate d1 e1) d = d := by
        simp [infer_config_site, _config_enumerate, declMsg, h1, h3, dictUpdate]
      rw [hd]
      simp [infer_config_site, _config_enumerate, declMsg, h1, h3, dictUpdate]

/-- Re-applying the configurator to an already-configured program changes
nothing, whatever defaults the second application requests. -/
theorem infer_config_idem (p : Prog) (d1 e1 d2 e2 : PyVal) :
    infer_config (infer_config p (_config_enumerate d1 e1)) (_config_enumerate d2 e2) =
      infer_config p (_config_enumerate d1 e1) := by
  induction p with
  | nil => rfl
  | cons d rest ih =>
    show infer_config_site (_config_enumerate d2 e2)
          (infer_config_site (_config_enumerate d1 e1) d) ::
        infer_config (infer_config rest (_config_enumerate d1 e1)) (_config_enumerate d2 e2) =
      infer_config_site (_config_enumerate d1 e1) d :: infer_config rest (_config_enumerate d1 e1)
    rw [infer_config_site_stable, ih]

/-- Claim C9 (amended): the configurator gives every sample-typed,
non-observed site whose distribution supports enumeration and which carries
no explicit enumerate and expand directives the requested default strategy
and expand flag; a pre-existing explicit enumerate directive is never
overwritten (though an absent expand entry may still be filled in on such a
site, which is what the counterexample exhibits); and re-applying the
configurator with any other default and expand changes no site of an
already-configured program. -/
theorem config_enumerate_annotator_spec (d : SiteDecl) (default expand : PyVal) :
    (d.stype = sampleTag → d.is_observed = false → d.fn.has_enumerate_support = true →
      dictGet d.infer enumKey = Option.none → dictGet d.infer expandKey = Option.none →
      dictGet (infer_config_site (_config_enumerate default expand) d).infer enumKey =
          some default ∧
      dictGet (infer_config_site (_config_enumerate default expand) d).infer expandKey =
          some expand) ∧
    (∀ v, dictGet d.infer enumKey = some v →
      dictGet (infer_config_site (_config_enumerate default expand) d).infer enumKey = some v) ∧
    (∀ p d2 e2,
      infer_config (infer_config p (_config_enumerate default expand)) (_config_enumerate d2 e2) =
        infer_config p (_config_enumerate default expand)) := by
  refine ⟨?_, ?_, ?_⟩
  · intro h1 h2 h3 h4 h5
    have hred : infer_config_site (_config_enumerate default expand) d =
        { d with infer := dictSet (dictSet d.infer enumKey default) expandKey expand } := by
      simp [infer_config_site, _config_enumerate, declMsg, h1, h2, h3, dictUpdate, dictGetD, h4, h5]
    rw [hred]
    constructor
    · rw [dictGet_dictSet_ne _ _ _ _ (by decide)]
      exact dictGet_dictSet_same _ _ _
    · exact dictGet_dictSet_same _ _ _
  · intro v hv
    by_cases h1 : ((d.stype != sampleTag) || d.is_observed) = true
    · have hd : infer_config_site (_config_enumerate default expand) d = d := by
        simp [infer_config_site, _config_enumerate, declMsg, h1, dictUpdate]
      rw [hd]
      exact hv
    · by_cases h3 : d.fn.has_enumerate_support = true
      · have hred : infer_config_site (_config_enumerate default expand) d =
          { d with infer := (dictSet (dictSet d.infer enumKey v)
              expandKey (dictGetD d.infer expandKey expand)) } := by
          simp [infer_config_site, _config_enumerate, declMsg, h1, h3, dictUpdate, dictGetD, hv]
        rw [hred]
        rw [dictGet_dictSet_ne _ _ _ _ (by decide)]
        exact dictGet_dictSet_same _ _ _
      · have hd : infer_config_site (_config_enumerate default expand) d = d := by
          simp [infer_config_site, _config_enumerate, declMsg, h1, h3, dictUpdate]
        rw [hd]
        exact hv
  · intro p d2 e2
    exact infer_config_idem p default expand d2 e2

/-- A sample site carrying no explicit directives. -/
def siteC9u : SiteDecl :=
  { name := aName, stype := sampleTag, is_observed := false, fn := bern, infer := [] }

/-- Witness for claim C9: on a concrete unconfigured enumerable site, the
configurator installs the requested default strategy and expand flag. -/
theorem config_enumerate_annotator_spec_witness :
    dictGet siteC9u.infer enumKey = Option.none ∧
    dictGet (infer_config_site (_config_enumerate (PyVal.str seqStr) (PyVal.bool true))
        siteC9u).infer enumKey = some (PyVal.str seqStr) ∧
    dictGet (infer_config_site (_config_enumerate (PyVal.str seqStr) (PyVal.bool true))
        siteC9u).infer expandKey = some (PyVal.bool true) := by
  refine ⟨by decide, ?_, ?_⟩
  · exact ((config_enumerate_annotator_spec siteC9u (PyVal.str seqStr) (PyVal.bool true)).1
      rfl rfl rfl (by decide) (by decide)).1
  · exact ((config_enumerate_annotator_spec siteC9u (PyVal.str seqStr) (PyVal.bool true)).1
      rfl rfl rfl (by decide) (by decide)).2

/-- The number of tensor dimensions of a site's recorded value (0 when the
site is unresolved). -/
def siteDims (s : Site) : Nat :=
  match s.value with
  | some v => v.dims
  | Option.none => 0

/-- Modelled from the spec: `prune_subsample_sites` (imported from
`pyro.poutine.util`, not under `src/`) removes from a trace the sites whose
sole purpose is internal subsampling bookkeeping. -/
def prune_subsample_sites (t : Trace) : Trace :=
  t.filter (fun s => !((s.stype == sampleTag) && s.fn.is_subsample))

/-- The names of the non-observed sample sites of a trace. -/
def nonObsSampleNames (t : Trace) : List String :=
  (t.filter (fun s => (s.stype == sampleTag) && !s.is_observed)).map (fun s => s.name)

/-- Whether the non-observed sample site names of two traces agree as sets. -/
def sameSiteSets (mt gt : Trace) : Bool :=
  (nonObsSampleNames mt).all (fun n => (nonObsSampleNames gt).contains n) &&
  (nonObsSampleNames gt).all (fun n => (nonObsSampleNames mt).contains n)

/-- The structural-mismatch error message. -/
def mismatchMsg : String := "Model and guide site names disagree"

/-- Modelled from the spec: `check_model_guide_match` (imported from
`pyro.util`, not under `src/`) checks that every non-observed sampling site
of the model has a matching counterpart in the guide and conversely,
signaling a mismatch error if not. -/
def check_model_guide_match (mt gt : Trace) : Except String Unit :=
  if sameSiteSets mt gt then Except.ok () else Except.error mismatchMsg

/-- The prefix of the shape error message. -/
def shapeMsgPre : String := "Invalid shape at site "

/-- The shape error message, naming the offending site. -/
def shapeErrMsg (n : String) : String := String.append shapeMsgPre n

/-- Modelled from the spec: `check_site_shape` (imported from `pyro.util`,
not under `src/`) checks that a site's recorded value has a shape consistent
with the declared independence-nesting depth bound, signaling a shape error
naming the site on violation. -/
def check_site_shape (s : Site) (bound : Nat) : Except String Unit :=
  if siteDims s ≤ bound then Except.ok () else Except.error (shapeErrMsg s.name)

/-- The site-shape validation loop of `get_importance_trace`: every site of
type "sample" is checked, in trace order. -/
def checkSiteShapes : Trace → Nat → Except String Unit
  | [], _ => Except.ok ()
  | s :: rest, b =>
    if s.stype == sampleTag then
      match check_site_shape s b with
      | Except.error e => Except.error e
      | Except.ok _ => checkSiteShapes rest b
    else checkSiteShapes rest b

/-- Modelled from the spec: the trace method `compute_log_prob` computes the
log-probability of every sample site's recorded value under its own
distribution. -/
def compute_log_prob (t : Trace) : Trace :=
  t.map (fun s =>
    if s.stype == sampleTag then
      { s with log_prob := some (s.fn.log_prob (s.value.getD ⟨0, 0⟩)) }
    else s)

/-- Modelled from the spec: the trace method `compute_score_parts` computes
the decomposed per-site score components on the guide trace (opaque numeric
payload to this core). -/
def compute_score_parts (t : Trace) : Trace :=
  t.map (fun s =>
    if s.stype == sampleTag then
      { s with score_parts := some (s.fn.log_prob (s.value.getD ⟨0, 0⟩)) }
    else s)

/-- Modelled from the spec: executing the guide through `poutine.trace`
records one resolved site per declaration, in program order. -/
def runGuideTrace (p : Prog) : Trace :=
  p.map (fun d => { declMsg d with value := some d.fn.sample })

/-- Modelled from the spec: executing the model through `poutine.replay`
against the guide trace forces every sampling site the guide also defines to
the guide's recorded value, and resolves the remaining sites normally. -/
def runReplayTrace (p : Prog) (gt : Trace) : Trace :=
  p.map (fun d =>
    if d.stype == sampleTag then
      match traceFind gt d.name with
      | some s => { declMsg d with value := s.value }
      | Option.none => { declMsg d with value := some d.fn.sample }
    else { declMsg d with value := some d.fn.sample })

/-- The model trace as returned by `get_importance_trace`: replayed against
the guide, pruned of subsampling sites, with log-probabilities computed. -/
def importanceModelTrace (model guide : Prog) : Trace :=
  compute_log_prob (prune_subsample_sites (runReplayTrace model (runGuideTrace guide)))

/-- The guide trace as returned by `get_importance_trace`: pruned of
subsampling sites, with score parts computed. -/
def importanceGuideTrace (guide : Prog) : Trace :=
  compute_score_parts (prune_subsample_sites (runGuideTrace guide))

/-- The `get_importance_trace` pipeline of `enum.py`: run the guide, replay
the model against it, check model/guide agreement when validation is
enabled, prune subsampling sites, compute probability quantities, check
every sample site's shape on both traces when validation is enabled, and
return the pair.  The process-wide validation toggle
(`is_validation_enabled`, not under `src/`) is modelled as the Boolean
parameter gating both checks. -/
def get_importance_trace (validation : Bool) (max_iarange_nesting : Nat)
    (model guide : Prog) : Except String (Trace × Trace) :=
  match (if validation then
      check_model_guide_match (runReplayTrace model (runGuideTrace guide)) (runGuideTrace guide)
    else Except.ok ()) with
  | Except.error e => Except.error e
  | Except.ok _ =>
    match (if validation then
        match checkSiteShapes (importanceModelTrace model guide) max_iarange_nesting with
        | Except.error e => Except.error e
        | Except.ok _ => checkSiteShapes (importanceGuideTrace guide) max_iarange_nesting
      else Except.ok ()) with
    | Except.error e => Except.error e
    | Except.ok _ => Except.ok (importanceModelTrace model guide, importanceGuideTrace guide)

/-- The shape loop succeeds iff every sample site's value fits the bound. -/
theorem checkSiteShapes_ok (t : Trace) (b : Nat) :
    checkSiteShapes t b = Except.ok () ↔
      ∀ s ∈ t, s.stype = sampleTag → siteDims s ≤ b := by
  induction t with
  | nil => simp [checkSiteShapes]
  | cons s rest ih =>
    by_cases hst : s.stype = sampleTag
    · by_cases hd : siteDims s ≤ b
      · simp [checkSiteShapes, hst, check_site_shape, hd, ih]
      · refine iff_of_false ?_ ?_
        · intro hcontra
          simp [checkSiteShapes, hst, check_site_shape, hd] at hcontra
        · intro hall
          exact hd (hall s (List.mem_cons_self s rest) hst)
    · simp [checkSiteShapes, hst, ih]

/-- When some sample site violates the bound, the shape loop signals a shape
error naming a violating sample site. -/
theorem checkSiteShapes_error (t : Trace) (b : Nat)
    (h : ¬ (∀ s ∈ t, s.stype = sampleTag → siteDims s ≤ b)) :
    ∃ s, s ∈ t ∧ s.stype = sampleTag ∧ b < siteDims s ∧
      checkSiteShapes t b = Except.error (shapeErrMsg s.name) := by
  induction t with
  | nil => simp at h
  | cons s rest ih =>
    by_cases hst : s.stype = sampleTag
    · by_cases hd : siteDims s ≤ b
      · have hrest : ¬ (∀ x ∈ rest, x.stype = sampleTag → siteDims x ≤ b) := by
          intro hall
          refine h ?_
          intro x hx
          rcases List.mem_cons.mp hx with h1 | h2
          · subst h1
            intro _
            exact hd
          · exact hall x h2
        obtain ⟨x, hx, hxs, hxd, hxe⟩ := ih hrest
        exact ⟨x, List.mem_cons_of_mem s hx, hxs, hxd,
          by simp [checkSiteShapes, hst, check_site_shape, hd, hxe]⟩
      · exact ⟨s, List.mem_cons_self s rest, hst, Nat.lt_of_not_le hd,
          by simp [checkSiteShapes, hst, check_site_shape, hd]⟩
    · have hrest : ¬ (∀ x ∈ rest, x.stype = sampleTag → siteDims x ≤ b) := by
        intro hall
        refine h ?_
        intro x hx
        rcases List.mem_cons.mp hx with h1 | h2
        · subst h1
          intro hxs
          exact absurd hxs hst
        · exact hall x h2
      obtain ⟨x, hx, hxs, hxd, hxe⟩ := ih hrest
      exact ⟨x, List.mem_cons_of_mem s hx, hxs, hxd, by simp [checkSiteShapes, hst, hxe]⟩

/-- Claim C6: on a model/guide pair whose non-observed sampling site sets
disagree, `get_importance_trace` surfaces the structural-mismatch validation
error exactly when validation is enabled: enabled, the mismatch error aborts
the build; disabled, the same pair raises nothing and a pair of traces is
returned (the check is skipped entirely). -/
theorem get_importance_trace_mismatch (model guide : Prog) (b : Nat)
    (h : sameSiteSets (runReplayTrace model (runGuideTrace guide)) (runGuideTrace guide) = false) :
    get_importance_trace true b model guide = Except.error mismatchMsg ∧
    (∃ pr, get_importance_trace false b model guide = Except.ok pr) := by
  constructor
  · simp [get_importance_trace, check_model_guide_match, h]
  · exact ⟨_, rfl⟩

/-- A model with a single non-observed sample site. -/
def progC6 : Prog :=
  [{ name := aName, stype := sampleTag, is_observed := false, fn := bern, infer := [] }]

/-- Witness for claim C6: the concrete pair of `progC6` against the empty
guide is structurally mismatched; validation on yields the mismatch error,
validation off returns a pair. -/
theorem get_importance_trace_mismatch_witness :
    sameSiteSets (runReplayTrace progC6 (runGuideTrace [])) (runGuideTrace []) = false ∧
    (get_importance_trace true 0 progC6 [] = Except.error mismatchMsg ∧
     (∃ pr, get_importance_trace false 0 progC6 [] = Except.ok pr)) :=
  ⟨by decide, get_importance_trace_mismatch progC6 [] 0 (by decide)⟩

/-- With validation on and a structurally matching pair, the pipeline reduces
to the two shape-check loops followed by the returned pair. -/
theorem get_importance_trace_gate (model guide : Prog) (b : Nat)
    (hmatch : sameSiteSets (runReplayTrace model (runGuideTrace guide)) (runGuideTrace guide) = true) :
    get_importance_trace true b model guide =
      (match (match checkSiteShapes (importanceModelTrace model guide) b with
         | Except.error e => Except.error e
         | Except.ok _ => checkSiteShapes (importanceGuideTrace guide) b) with
       | Except.error e => Except.error e
       | Except.ok _ =>
         Except.ok (importanceModelTrace model guide, importanceGuideTrace guide)) := by
  simp [get_importance_trace, check_model_guide_match, hmatch]

/-- Claim C7 (amended): with validation enabled and a structurally matching
pair, `get_importance_trace` checks the recorded value of every site of type
"sample" (and only sites of type "sample") on both the model trace and the
guide trace, after pruning, against the `max_iarange_nesting` bound: it
succeeds exactly when every such sample site fits the bound, and on any
violation it returns a shape error naming a violating sample site. -/
theorem get_importance_trace_shape_check (model guide : Prog) (b : Nat)
    (hmatch : sameSiteSets (runReplayTrace model (runGuideTrace guide)) (runGuideTrace guide) = true) :
    ((∃ pr, get_importance_trace true b model guide = Except.ok pr) ↔
      ((∀ s ∈ importanceModelTrace model guide, s.stype = sampleTag → siteDims s ≤ b) ∧
       (∀ s ∈ importanceGuideTrace guide, s.stype = sampleTag → siteDims s ≤ b))) ∧
    (¬ ((∀ s ∈ importanceModelTrace model guide, s.stype = sampleTag → siteDims s ≤ b) ∧
        (∀ s ∈ importanceGuideTrace guide, s.stype = sampleTag → siteDims s ≤ b)) →
      ∃ s, (s ∈ importanceModelTrace model guide ∨ s ∈ importanceGuideTrace guide) ∧
        s.stype = sampleTag ∧ b < siteDims s ∧
        get_importance_trace true b model guide = Except.error (shapeErrMsg s.name)) := by
  have hgate := get_importance_trace_gate model guide b hmatch
  by_cases hA : ∀ s ∈ importanceModelTrace model guide, s.stype = sampleTag → siteDims s ≤ b
  · by_cases hB : ∀ s ∈ importanceGuideTrace guide, s.stype = sampleTag → siteDims s ≤ b
    · have hm := (checkSiteShapes_ok (importanceModelTrace model guide) b).mpr hA
      have hg := (checkSiteShapes_ok (importanceGuideTrace guide) b).mpr hB
      have hok : get_importance_trace true b model guide =
          Except.ok (importanceModelTrace model guide, importanceGuideTrace guide) := by
        rw [hgate, hm, hg]
      constructor
      · exact iff_of_true ⟨_, hok⟩ ⟨hA, hB⟩
      · intro hcon
        exact absurd ⟨hA, hB⟩ hcon
    · have hm := (checkSiteShapes_ok (importanceModelTrace model guide) b).mpr hA
      obtain ⟨s, hs, hss, hsd, hse⟩ := checkSiteShapes_error (importanceGuideTrace guide) b hB
      have herr : get_importance_trace true b model guide =
          Except.error (shapeErrMsg s.name) := by
        rw [hgate, hm, hse]
      constructor
      · refine iff_of_false ?_ ?_
        · rintro ⟨pr, hpr⟩
          rw [herr] at hpr
          exact absurd hpr (by simp)
        · rintro ⟨h1, h2⟩
          exact hB h2
      · intro _
        exact ⟨s, Or.inr hs, hss, hsd, herr⟩
  · obtain ⟨s, hs, hss, hsd, hse⟩ := checkSiteShapes_error (importanceModelTrace model guide) b hA
    have herr : get_importance_trace true b model guide =
        Except.error (shapeErrMsg s.name) := by
      rw [hgate, hse]
    constructor
    · refine iff_of_false ?_ ?_
      · rintro ⟨pr, hpr⟩
        rw [herr] at hpr
        exact absurd hpr (by simp)
      · rintro ⟨h1, h2⟩
        exact hA h1
    · intro _
      exact ⟨s, Or.inl hs, hss, hsd, herr⟩

/-- The site-type tag "param". -/
def paramTag : String := "param"

/-- A site name. -/
def pName : String := "p"

/-- A distribution whose deterministic outcome has 5 tensor dimensions. -/
def bigDist : PDist :=
  { enumerate_support := fun _ => [],
    has_enumerate_support := false,
    is_subsample := false,
    sample := ⟨0, 5⟩,
    log_prob := fun _ => 0 }

/-- A model consisting of one param-typed site with a 5-dimensional value. -/
def progC7 : Prog :=
  [{ name := pName, stype := paramTag, is_observed := false, fn := bigDist, infer := [] }]

/-- Claim C7 counterexample: with validation enabled and a nesting bound of
0, the pruned model trace of `progC7` records a param-typed site whose value
has 5 dimensions — a violation by this development's own site-shape checker —
yet `get_importance_trace` succeeds instead of signaling a shape error,
because the source checks only sites of type "sample"; so the claim's "every
site" is false on the code. -/
theorem get_importance_trace_skips_nonsample_shapes :
    (∃ s, traceFind (importanceModelTrace progC7 []) pName = some s ∧
      s.stype = paramTag ∧ siteDims s = 5 ∧
      check_site_shape s 0 = Except.error (shapeErrMsg pName)) ∧
    (∃ pr, get_importance_trace true 0 progC7 [] = Except.ok pr) := by
  constructor
  · exact ⟨_, rfl, rfl, rfl, rfl⟩
  · exact ⟨_, rfl⟩

/-- Witness for claim C7: on the concrete matching pair where `progC6` is
both model and guide, with bound 0, validation succeeds and the success is
equivalent to all sample sites fitting the bound. -/
theorem get_importance_trace_shape_check_witness :
    sameSiteSets (runReplayTrace progC6 (runGuideTrace progC6)) (runGuideTrace progC6) = true ∧
    (∃ pr, get_importance_trace true 0 progC6 progC6 = Except.ok pr) :=
  ⟨by decide,
   ((get_importance_trace_shape_check progC6 progC6 0 (by decide)).1).mpr ⟨by decide, by decide⟩⟩

/-- The outcome of one replay attempt: either the program ran to completion,
or it escaped at an unresolved enumerable site, producing forked traces. -/
inductive ReplayResult where
  | complete (t : Trace)
  | escaped (forks : List Trace)

/-- Modelled from the spec: one replay attempt of a straight-line program
against a popped partial trace (section 4.3 of the spec, realized in the
source by the external `poutine.queue`/`poutine.trace` machinery): a site
whose name is already recorded is forced to the recorded value; otherwise
the escape predicate is consulted on the accumulated trace — on escape the
attempt aborts immediately and the extend generator, applied to the
accumulated trace and the escaping site, produces the forks; otherwise the
site resolves normally and the replay continues. -/
def replayProg : Prog → Trace → Trace → ReplayResult
  | [], _, acc => ReplayResult.complete acc
  | d :: ds, P, acc =>
    match traceFind P d.name with
    | some s => replayProg ds P (acc ++ [{ declMsg d with value := s.value }])
    | Option.none =>
      if iter_discrete_escape acc (declMsg d) then
        ReplayResult.escaped (iter_discrete_extend acc (declMsg d))
      else
        replayProg ds P (acc ++ [{ declMsg d with value := some d.fn.sample }])

/-- Modelled from the spec: the LIFO work-stack loop of
`iter_discrete_traces`, with an explicit fuel bound on the number of pops;
`some ys` means the stack drained within the fuel, yielding `ys` in order.
Forks are pushed in generator order, so the last fork is popped first. -/
def runQueue (prog : Prog) : Nat → List Trace → Option (List Trace)
  | _, [] => some []
  | 0, _ :: _ => Option.none
  | fuel + 1, P :: stack =>
    match replayProg prog P [] with
    | ReplayResult.complete t => (runQueue prog fuel stack).map (fun ys => t :: ys)
    | ReplayResult.escaped forks => runQueue prog fuel (forks.reverse ++ stack)

/-- The `iter_discrete_traces` driver of `enum.py` on a straight-line
program: a fresh stack holding one empty trace is popped until empty, one
completed trace yielded per fully replayed attempt. -/
def iter_discrete_traces (prog : Prog) (fuel : Nat) : Option (List Trace) :=
  runQueue prog fuel [[]]

/-- A drained run is insensitive to extra fuel. -/
theorem runQueue_mono (prog : Prog) : ∀ (f f2 : Nat) (S ys : List Trace),
    runQueue prog f S = some ys → f ≤ f2 → runQueue prog f2 S = some ys := by
  intro f
  induction f with
  | zero =>
    intro f2 S ys h hle
    cases S with
    | nil =>
      simp [runQueue] at h
      subst h
      cases f2 <;> simp [runQueue]
    | cons P stack => simp [runQueue] at h
  | succ f ih =>
    intro f2 S ys h hle
    cases S with
    | nil =>
      simp [runQueue] at h
      subst h
      cases f2 <;> simp [runQueue]
    | cons P stack =>
      obtain ⟨g, rfl⟩ : ∃ g, f2 = g + 1 := ⟨f2 - 1, by omega⟩
      simp only [runQueue] at h ⊢
      cases hr : replayProg prog P [] with
      | complete t =>
        rw [hr] at h
        simp only [] at h
        cases hq : runQueue prog f stack with
        | none => rw [hq] at h; simp at h
        | some ys2 =>
          rw [hq] at h
          simp at h
          rw [ih g stack ys2 hq (by omega)]
          simpa using h
      | escaped forks =>
        rw [hr] at h
        simp only [] at h
        exact ih g (forks.reverse ++ stack) ys h (by omega)

/-- Draining two stacks in sequence drains their concatenation, with the
yields concatenated. -/
theorem runQueue_append (prog : Prog) : ∀ (f1 : Nat) (S1 ys1 : List Trace)
    (f2 : Nat) (S2 ys2 : List Trace),
    runQueue prog f1 S1 = some ys1 → runQueue prog f2 S2 = some ys2 →
    runQueue prog (f1 + f2) (S1 ++ S2) = some (ys1 ++ ys2) := by
  intro f1
  induction f1 with
  | zero =>
    intro S1 ys1 f2 S2 ys2 h1 h2
    cases S1 with
    | nil =>
      simp [runQueue] at h1
      subst h1
      simpa using runQueue_mono prog f2 (0 + f2) S2 ys2 h2 (by omega)
    | cons P stack => simp [runQueue] at h1
  | succ f ih =>
    intro S1 ys1 f2 S2 ys2 h1 h2
    cases S1 with
    | nil =>
      simp [runQueue] at h1
      subst h1
      simpa using runQueue_mono prog f2 (f + 1 + f2) S2 ys2 h2 (by omega)
    | cons P stack =>
      have hf : f + 1 + f2 = (f + f2) + 1 := by omega
      rw [hf]
      simp only [List.cons_append, runQueue] at h1 ⊢
      cases hr : replayProg prog P [] with
      | complete t =>
        rw [hr] at h1
        simp only [] at h1
        cases hq : runQueue prog f stack with
        | none => rw [hq] at h1; simp at h1
        | some ys3 =>
          rw [hq] at h1
          simp at h1
          show Option.map (fun ys => t :: ys) (runQueue prog (f + f2) (stack ++ S2)) =
            some (ys1 ++ ys2)
          rw [ih stack ys3 f2 S2 ys2 hq h2]
          simp [← h1]
      | escaped forks =>
        rw [hr] at h1
        simp only [] at h1
        show runQueue prog (f + f2) (forks.reverse ++ (stack ++ S2)) = some (ys1 ++ ys2)
        have := ih (forks.reverse ++ stack) ys1 f2 S2 ys2 h1 h2
        rw [List.append_assoc] at this
        exact this

/-- The name of the i-th site of the binary test program (i letters). -/
def nameOf (i : Nat) : String := String.mk (List.replicate i 'a')

/-- The tensor value recorded for a Boolean outcome. -/
def bVal (b : Bool) : Val := if b then ⟨1, 0⟩ else ⟨0, 0⟩

/-- The infer dictionary requesting sequential enumeration. -/
def seqInfer : Infer := [(enumKey, PyVal.str seqStr)]

/-- The i-th site declaration of the binary test program: a non-observed
sample site over the two-point distribution, marked sequential. -/
def mkDecl (i : Nat) : SiteDecl :=
  { name := nameOf i, stype := sampleTag, is_observed := false, fn := bern, infer := seqInfer }

/-- The program of k independent sequentially-enumerable binary sample sites
and no other sites. -/
def binProg (k : Nat) : Prog := (List.range k).map mkDecl

/-- The i-th site as recorded by a replay that forces it to outcome b. -/
def fsite (i : Nat) (b : Bool) : Site :=
  { declMsg (mkDecl i) with value := some (bVal b) }

/-- The i-th site as recorded by the extend generator for outcome b (the
infer dictionary carries the `_enum_total` annotation). -/
def psite (i : Nat) (b : Bool) : Site :=
  { fsite i b with infer := dictSet seqInfer totalKey (PyVal.int 2) }

/-- The trace of forced sites for outcomes `bs`, with names starting at j. -/
def ftrFrom : Nat → List Bool → Trace
  | _, [] => []
  | j, b :: bs => fsite j b :: ftrFrom (j + 1) bs

/-- The completed trace of the binary program for outcomes `bs`. -/
def ftr (bs : List Bool) : Trace := ftrFrom 0 bs

/-- All completions of the prefix `bs` by n further Boolean choices, in the
order the LIFO driver yields them (last support element first). -/
def enumFrom : Nat → List Bool → List (List Bool)
  | 0, bs => [bs]
  | n + 1, bs => enumFrom n (bs ++ [true]) ++ enumFrom n (bs ++ [false])

/-- A partial trace assigns the outcome prefix `bs`: the first `bs.length`
site names are recorded with the corresponding Boolean values and no later
site name is recorded. -/
def Assigns (P : Trace) (bs : List Bool) : Prop :=
  (∀ i, i < bs.length → ∃ s, traceFind P (nameOf i) = some s ∧
      s.value = some (bVal (bs.getD i false))) ∧
  (∀ i, bs.length ≤ i → traceFind P (nameOf i) = Option.none)

/-- Site names are distinct. -/
theorem nameOf_inj (i j : Nat) (h : nameOf i = nameOf j) : i = j := by
  have h2 : List.replicate i 'a' = List.replicate j 'a' := congrArg String.data h
  have h3 := congrArg List.length h2
  simpa using h3

/-- A name is absent from a trace iff the lookup fails. -/
theorem traceContains_eq_false_iff (t : Trace) (n : String) :
    traceContains t n = false ↔ traceFind t n = Option.none := by
  induction t with
  | nil => simp [traceContains, traceFind]
  | cons s rest ih =>
    by_cases h : s.name = n
    · simp [traceContains, traceFind, List.find?_cons, h]
    · simp [traceContains, traceFind, List.find?_cons, h] at ih ⊢

/-- Looking up the (j+i)-th name in a forced-site trace starting at j. -/
theorem traceFind_ftrFrom_lt : ∀ (bs : List Bool) (j i : Nat), i < bs.length →
    traceFind (ftrFrom j bs) (nameOf (j + i)) =
      some (fsite (j + i) (bs.getD i false)) := by
  intro bs
  induction bs with
  | nil =>
    intro j i h
    simp at h
  | cons b rest ih =>
    intro j i h
    cases i with
    | zero =>
      have hname : (fsite j b).name = nameOf (j + 0) := by
        show nameOf j = nameOf (j + 0)
        rw [Nat.add_zero]
      simp [ftrFrom, traceFind, List.find?_cons, hname]
    | succ i2 =>
      have hne : ((fsite j b).name == nameOf (j + (i2 + 1))) = false := by
        have : nameOf j ≠ nameOf (j + (i2 + 1)) := by
          intro hc
          have := nameOf_inj _ _ hc
          omega
        simpa [fsite, declMsg, mkDecl] using this
      have hidx : j + (i2 + 1) = (j + 1) + i2 := by omega
      have hrec := ih (j + 1) i2 (by simpa using h)
      rw [hidx]
      simp only [ftrFrom, traceFind, List.find?_cons]
      rw [show ((fsite j b).name == nameOf (j + 1 + i2)) = false from by
        rw [← hidx]; exact hne]
      exact hrec

/-- Names outside the index range of a forced-site trace are absent. -/
theorem traceFind_ftrFrom_out : ∀ (bs : List Bool) (j i : Nat),
    (i < j ∨ j + bs.length ≤ i) →
    traceFind (ftrFrom j bs) (nameOf i) = Option.none := by
  intro bs
  induction bs with
  | nil =>
    intro j i _
    rfl
  | cons b rest ih =>
    intro j i h
    have hne : ((fsite j b).name == nameOf i) = false := by
      have : nameOf j ≠ nameOf i := by
        intro hc
        have := nameOf_inj _ _ hc
        simp at h
        omega
      simpa [fsite, declMsg, mkDecl] using this
    simp only [ftrFrom, traceFind, List.find?_cons, hne]
    refine ih (j + 1) i ?_
    simp at h
    omega

/-- A recorded site is forced: the replay appends it with the recorded value
and continues. -/
theorem replayProg_cons_forced (d : SiteDecl) (ds : Prog) (P acc : Trace) (s : Site)
    (h : traceFind P d.name = some s) :
    replayProg (d :: ds) P acc =
      replayProg ds P (acc ++ [{ declMsg d with value := s.value }]) := by
  simp [replayProg, h]

/-- An unrecorded site on which the escape predicate fires aborts the replay
with the extend generator's forks. -/
theorem replayProg_cons_escape (d : SiteDecl) (ds : Prog) (P acc : Trace)
    (h : traceFind P d.name = Option.none)
    (hesc : iter_discrete_escape acc (declMsg d) = true) :
    replayProg (d :: ds) P acc =
      ReplayResult.escaped (iter_discrete_extend acc (declMsg d)) := by
  simp [replayProg, h, hesc]

/-- Membership in an appended trace. -/
theorem traceContains_append (t u : Trace) (n : String) :
    traceContains (t ++ u) n = (traceContains t n || traceContains u n) := by
  simp [traceContains, List.any_append]

/-- Membership in a singleton trace. -/
theorem traceContains_singleton (s : Site) (n : String) :
    traceContains [s] n = (s.name == n) := by
  simp [traceContains]

/-- One replay of the binary program's remaining sites against a partial
trace assigning `bs`: the first `bs.length` sites are forced in program
order, then either the replay completes (all sites assigned) or it escapes
at site `bs.length`, forking on both outcomes in support order. -/
theorem replay_binAux : ∀ (n j : Nat) (bs : List Bool) (P acc : Trace),
    Assigns P bs → j ≤ bs.length → bs.length ≤ j + n →
    (∀ i, j ≤ i → traceContains acc (nameOf i) = false) →
    replayProg ((List.range' j n).map mkDecl) P acc =
      (if bs.length = j + n
       then ReplayResult.complete (acc ++ ftrFrom j (List.drop j bs))
       else ReplayResult.escaped
         [acc ++ ftrFrom j (List.drop j bs) ++ [psite bs.length false],
          acc ++ ftrFrom j (List.drop j bs) ++ [psite bs.length true]]) := by
  intro n
  induction n with
  | zero =>
    intro j bs P acc hA hj hjn hacc
    have hlen : bs.length = j := by omega
    rw [if_pos (by omega)]
    have hr : List.range' j 0 = [] := rfl
    rw [hr]
    have hdrop : List.drop j bs = [] := by
      rw [← hlen, List.drop_length]
    rw [hdrop]
    show ReplayResult.complete acc = ReplayResult.complete (acc ++ ftrFrom j [])
    simp [ftrFrom]
  | succ n ih =>
    intro j bs P acc hA hj hjn hacc
    rw [List.range'_succ]
    by_cases hcase : j < bs.length
    · obtain ⟨s, hfind, hval⟩ := hA.1 j hcase
      rw [List.map_cons]
      rw [replayProg_cons_forced (mkDecl j) _ P acc s hfind]
      rw [hval]
      have hforced : ({ declMsg (mkDecl j) with value := some (bVal (bs.getD j false)) } : Site) =
          fsite j (bs.getD j false) := rfl
      rw [hforced]
      have hacc2 : ∀ i, j + 1 ≤ i →
          traceContains (acc ++ [fsite j (bs.getD j false)]) (nameOf i) = false := by
        intro i hi
        have h1 := hacc i (by omega)
        have hne : ((fsite j (bs.getD j false)).name == nameOf i) = false := by
          have hne2 : nameOf j ≠ nameOf i := by
            intro hc
            have := nameOf_inj _ _ hc
            omega
          simpa [fsite, declMsg, mkDecl] using hne2
        rw [traceContains_append, h1, traceContains_singleton, hne]
        rfl
      have hrec := ih (j + 1) bs P (acc ++ [fsite j (bs.getD j false)]) hA (by omega) (by omega) hacc2
      rw [hrec]
      have hj1 : j + 1 + n = j + (n + 1) := by omega
      rw [hj1]
      have hdrop : List.drop j bs = bs.getD j false :: List.drop (j + 1) bs := by
        rw [List.drop_eq_getElem_cons hcase, List.getD_eq_getElem bs false hcase]
      have hftr : ftrFrom j (List.drop j bs) =
          fsite j (bs.getD j false) :: ftrFrom (j + 1) (List.drop (j + 1) bs) := by
        rw [hdrop]
        rfl
      rw [hftr]
      simp [List.append_assoc]
    · have hlen : bs.length = j := by omega
      have hfind : traceFind P (mkDecl j).name = Option.none := hA.2 j (by omega)
      have hesc : iter_discrete_escape acc (declMsg (mkDecl j)) = true := by
        rw [iter_discrete_escape_iff]
        refine ⟨rfl, rfl, ?_, ?_⟩
        · show dictGet seqInfer enumKey = some (PyVal.str seqStr)
          decide
        · show traceContains acc (nameOf j) = false
          exact hacc j (by omega)
      rw [List.map_cons]
      rw [replayProg_cons_escape (mkDecl j) _ P acc hfind hesc]
      have hext : iter_discrete_extend acc (declMsg (mkDecl j)) =
          [acc ++ [psite j false], acc ++ [psite j true]] := rfl
      rw [hext]
      rw [if_neg (by omega)]
      have hdropnil : List.drop j bs = [] := by
        rw [← hlen, List.drop_length]
      rw [hdropnil]
      simp [ftrFrom, hlen]

/-- Replay of the full binary program from an empty accumulator. -/
theorem replay_bin (k : Nat) (bs : List Bool) (P : Trace)
    (hA : Assigns P bs) (hlen : bs.length ≤ k) :
    replayProg (binProg k) P [] =
      (if bs.length = k then ReplayResult.complete (ftr bs)
       else ReplayResult.escaped
         [ftr bs ++ [psite bs.length false], ftr bs ++ [psite bs.length true]]) := by
  have h0 : binProg k = (List.range' 0 k).map mkDecl := by
    rw [binProg, List.range_eq_range']
  rw [h0]
  have h := replay_binAux k 0 bs P [] hA (by omega) (by omega) (fun i _ => rfl)
  simpa [ftr] using h

/-- Lookup distributes over trace concatenation. -/
theorem traceFind_append (t u : Trace) (n : String) :
    traceFind (t ++ u) n = (traceFind t n).or (traceFind u n) := by
  simp [traceFind, List.find?_append]

/-- The empty trace assigns the empty prefix. -/
theorem assigns_nil : Assigns [] [] := by
  constructor
  · intro i h
    simp at h
  · intro i _
    rfl

/-- Each fork produced at depth `bs.length` assigns the extended prefix. -/
theorem assigns_extend (bs : List Bool) (b : Bool) :
    Assigns (ftr bs ++ [psite bs.length b]) (bs ++ [b]) := by
  constructor
  · intro i hi
    simp only [List.length_append, List.length_singleton] at hi
    by_cases hlt : i < bs.length
    · have hfind := traceFind_ftrFrom_lt bs 0 i hlt
      rw [Nat.zero_add] at hfind
      refine ⟨fsite i (bs.getD i false), ?_, ?_⟩
      · rw [traceFind_append]
        show (traceFind (ftrFrom 0 bs) (nameOf i)).or _ = _
        rw [hfind]
        rfl
      · rw [List.getD_append bs [b] false i hlt]
        rfl
    · have hieq : i = bs.length := by omega
      subst hieq
      refine ⟨psite bs.length b, ?_, ?_⟩
      · rw [traceFind_append]
        rw [show traceFind (ftr bs) (nameOf bs.length) = Option.none from
          traceFind_ftrFrom_out bs 0 bs.length (by omega)]
        have hname : ((psite bs.length b).name == nameOf bs.length) = true := by
          simp [psite, fsite, declMsg, mkDecl]
        simp [traceFind, List.find?_cons, hname]
      · rw [List.getD_append_right bs [b] false bs.length (le_refl _)]
        simp
        rfl
  · intro i hile
    simp only [List.length_append, List.length_singleton] at hile
    rw [traceFind_append]
    rw [show traceFind (ftr bs) (nameOf i) = Option.none from
      traceFind_ftrFrom_out bs 0 i (by omega)]
    have hne : ((psite bs.length b).name == nameOf i) = false := by
      have hne2 : nameOf bs.length ≠ nameOf i := by
        intro hc
        have := nameOf_inj _ _ hc
        omega
      simpa [psite, fsite, declMsg, mkDecl] using hne2
    simp [traceFind, List.find?_cons, hne]

/-- The driver drains a one-item stack assigning `bs` within fuel
2^(n+1) - 1, yielding exactly the completions of `bs` in LIFO depth-first
order (last support element first). -/
theorem runQueue_bin : ∀ (n k : Nat) (bs : List Bool) (P : Trace),
    Assigns P bs → bs.length + n = k →
    runQueue (binProg k) (2 ^ (n + 1) - 1) [P] = some ((enumFrom n bs).map ftr) := by
  intro n
  induction n with
  | zero =>
    intro k bs P hA hk
    have hrep := replay_bin k bs P hA (by omega)
    rw [if_pos (by omega)] at hrep
    rw [show (2:Nat) ^ (0 + 1) - 1 = 0 + 1 from by norm_num]
    simp only [runQueue]
    rw [hrep]
    rfl
  | succ n ih =>
    intro k bs P hA hk
    have hrep := replay_bin k bs P hA (by omega)
    rw [if_neg (by omega)] at hrep
    have hfuel : (2:Nat) ^ (n + 1 + 1) - 1 = ((2 ^ (n + 1) - 1) + (2 ^ (n + 1) - 1)) + 1 := by
      have h1 : (1:Nat) ≤ 2 ^ (n + 1) := Nat.one_le_two_pow
      have h2 : (2:Nat) ^ (n + 1 + 1) = 2 * 2 ^ (n + 1) := by ring
      omega
    rw [hfuel]
    have hstep : runQueue (binProg k) (((2 ^ (n + 1) - 1) + (2 ^ (n + 1) - 1)) + 1) [P] =
        runQueue (binProg k) ((2 ^ (n + 1) - 1) + (2 ^ (n + 1) - 1))
          ([ftr bs ++ [psite bs.length true]] ++ [ftr bs ++ [psite bs.length false]]) := by
      simp only [runQueue]
      rw [hrep]
      rfl
    rw [hstep]
    have ht := ih k (bs ++ [true]) (ftr bs ++ [psite bs.length true])
      (assigns_extend bs true) (by simp; omega)
    have hf := ih k (bs ++ [false]) (ftr bs ++ [psite bs.length false])
      (assigns_extend bs false) (by simp; omega)
    rw [runQueue_append (binProg k) (2 ^ (n + 1) - 1) [ftr bs ++ [psite bs.length true]] _
      (2 ^ (n + 1) - 1) [ftr bs ++ [psite bs.length false]] _ ht hf]
    rw [show enumFrom (n + 1) bs = enumFrom n (bs ++ [true]) ++ enumFrom n (bs ++ [false]) from rfl]
    rw [List.map_append]

/-- Each level of the completion tree has 2^n leaves. -/
theorem enumFrom_length : ∀ (n : Nat) (bs : List Bool), (enumFrom n bs).length = 2 ^ n := by
  intro n
  induction n with
  | zero =>
    intro bs
    rfl
  | succ n ih =>
    intro bs
    have h2 : (2:Nat) ^ (n + 1) = 2 ^ n + 2 ^ n := by ring
    simp [enumFrom, ih, h2]

/-- The completions of `bs` are exactly its extensions by n choices. -/
theorem enumFrom_mem : ∀ (n : Nat) (bs x : List Bool),
    x ∈ enumFrom n bs ↔ ∃ cs, cs.length = n ∧ x = bs ++ cs := by
  intro n
  induction n with
  | zero =>
    intro bs x
    simp only [enumFrom, List.mem_singleton]
    constructor
    · intro h
      exact ⟨[], rfl, by simp [h]⟩
    · rintro ⟨cs, hlen, rfl⟩
      simp [List.length_eq_zero.mp hlen]
  | succ n ih =>
    intro bs x
    simp only [enumFrom, List.mem_append, ih]
    constructor
    · rintro (⟨cs, hlen, rfl⟩ | ⟨cs, hlen, rfl⟩)
      · exact ⟨true :: cs, by simp [hlen], by simp⟩
      · exact ⟨false :: cs, by simp [hlen], by simp⟩
    · rintro ⟨cs, hlen, rfl⟩
      cases cs with
      | nil => simp at hlen
      | cons c cs2 =>
        cases c
        · right
          exact ⟨cs2, by simpa using hlen, by simp⟩
        · left
          exact ⟨cs2, by simpa using hlen, by simp⟩

/-- The completion list has no duplicates. -/
theorem enumFrom_nodup : ∀ (n : Nat) (bs : List Bool), (enumFrom n bs).Nodup := by
  intro n
  induction n with
  | zero =>
    intro bs
    simp [enumFrom]
  | succ n ih =>
    intro bs
    show (enumFrom n (bs ++ [true]) ++ enumFrom n (bs ++ [false])).Nodup
    rw [List.nodup_append]
    refine ⟨ih _, ih _, ?_⟩
    intro x hx1 hx2
    obtain ⟨cs, hl, rfl⟩ := (enumFrom_mem n _ x).mp hx1
    obtain ⟨cs2, hl2, heq⟩ := (enumFrom_mem n _ _).mp hx2
    rw [List.append_assoc, List.append_assoc] at heq
    have h2 := List.append_cancel_left heq
    simp at h2

/-- Distinct outcome vectors give distinct completed traces. -/
theorem ftrFrom_inj : ∀ (bs cs : List Bool) (j : Nat),
    ftrFrom j bs = ftrFrom j cs → bs = cs := by
  intro bs
  induction bs with
  | nil =>
    intro cs j h
    cases cs with
    | nil => rfl
    | cons c cs2 => simp [ftrFrom] at h
  | cons b bs2 ih =>
    intro cs j h
    cases cs with
    | nil => simp [ftrFrom] at h
    | cons c cs2 =>
      simp only [ftrFrom, List.cons.injEq] at h
      obtain ⟨h1, h2⟩ := h
      have hb : b = c := by
        have hval : some (bVal b) = some (bVal c) := congrArg Site.value h1
        cases b <;> cases c <;> simp_all [bVal]
      subst hb
      rw [ih cs2 (j + 1) h2]

/-- The completed-trace map is injective. -/
theorem ftr_inj : Function.Injective ftr := by
  intro bs cs h
  exact ftrFrom_inj bs cs 0 h

/-- Claim C3: on the program of k independent sequentially-enumerable binary
sample sites and no other sites, the driver (given fuel at least the
2^(k+1) - 1 pops it needs) drains and yields exactly 2^k full traces, each a
completed trace `ftr bs` for a distinct outcome vector, with no duplicates
and with every one of the 2^k outcome vectors of the k-fold product space
covered exactly once. -/
theorem iter_discrete_traces_binary (k f : Nat) (hf : 2 ^ (k + 1) - 1 ≤ f) :
    ∃ ys, iter_discrete_traces (binProg k) f = some ys ∧
      ys.length = 2 ^ k ∧
      ys.Nodup ∧
      (∀ bs : List Bool, bs.length = k → ftr bs ∈ ys) ∧
      (∀ t ∈ ys, ∃ bs : List Bool, bs.length = k ∧ t = ftr bs) := by
  have hrun := runQueue_bin k k ([] : List Bool) ([] : Trace) assigns_nil (by simp)
  have hmono := runQueue_mono (binProg k) (2 ^ (k + 1) - 1) f [[]] _ hrun hf
  refine ⟨(enumFrom k []).map ftr, ?_, ?_, ?_, ?_, ?_⟩
  · rw [iter_discrete_traces]
    exact hmono
  · rw [List.length_map, enumFrom_length]
  · exact List.Nodup.map ftr_inj (enumFrom_nodup k [])
  · intro bs hbs
    apply List.mem_map_of_mem
    rw [enumFrom_mem]
    exact ⟨bs, hbs, by simp⟩
  · intro t ht
    obtain ⟨bs, hmem, rfl⟩ := List.mem_map.mp ht
    obtain ⟨cs, hlen, heq⟩ := (enumFrom_mem k [] bs).mp hmem
    have hbs : bs.length = k := by
      rw [heq]
      simpa using hlen
    exact ⟨bs, hbs, rfl⟩

/-- Witness for claim C3: the concrete case of two binary sites and fuel 8
yields 4 distinct traces covering all four outcome pairs. -/
theorem iter_discrete_traces_binary_witness :
    2 ^ (2 + 1) - 1 ≤ 8 ∧
    (∃ ys, iter_discrete_traces (binProg 2) 8 = some ys ∧
      ys.length = 2 ^ 2 ∧
      ys.Nodup ∧
      (∀ bs : List Bool, bs.length = 2 → ftr bs ∈ ys) ∧
      (∀ t ∈ ys, ∃ bs : List Bool, bs.length = 2 ∧ t = ftr bs)) :=
  ⟨by norm_num, iter_discrete_traces_binary 2 8 (by norm_num)⟩

/-- Claim C5: on a program whose single site is a non-observed sample site
marked sequential whose enumerated support is empty, the driver yields zero
traces — the empty support produces no forks, the stack empties, and no
error occurs. -/
theorem iter_discrete_traces_empty_support (d : SiteDecl) (f : Nat)
    (hstype : d.stype = sampleTag) (hobs : d.is_observed = false)
    (henum : dictGet d.infer enumKey = some (PyVal.str seqStr))
    (hsupp : d.fn.enumerate_support (dictGetD d.infer expandKey EXPAND_DEFAULT) = [])
    (hf : 1 ≤ f) :
    iter_discrete_traces [d] f = some [] := by
  obtain ⟨g, rfl⟩ : ∃ g, f = g + 1 := ⟨f - 1, by omega⟩
  rw [iter_discrete_traces]
  have hesc : iter_discrete_escape [] (declMsg d) = true := by
    rw [iter_discrete_escape_iff]
    exact ⟨hstype, hobs, henum, rfl⟩
  have hrep : replayProg [d] [] [] = ReplayResult.escaped [] := by
    rw [replayProg_cons_escape d [] [] [] rfl hesc]
    simp [iter_discrete_extend, declMsg, hsupp]
  simp only [runQueue]
  rw [hrep]
  cases g <;> rfl

/-- A distribution with enumerate support but an empty support list. -/
def emptyDist : PDist :=
  { enumerate_support := fun _ => [],
    has_enumerate_support := true,
    is_subsample := false,
    sample := ⟨0, 0⟩,
    log_prob := fun _ => 0 }

/-- A single sequentially-enumerable sample site with empty support. -/
def dEmpty : SiteDecl :=
  { name := aName, stype := sampleTag, is_observed := false, fn := emptyDist, infer := seqInfer }

/-- Witness for claim C5: on the concrete one-site program with empty
support, the driver yields zero traces. -/
theorem iter_discrete_traces_empty_support_witness :
    (dEmpty.stype = sampleTag ∧ dEmpty.is_observed = false ∧
     dictGet dEmpty.infer enumKey = some (PyVal.str seqStr) ∧
     dEmpty.fn.enumerate_support (dictGetD dEmpty.infer expandKey EXPAND_DEFAULT) = [] ∧
     1 ≤ 2) ∧
    iter_discrete_traces [dEmpty] 2 = some [] :=
  ⟨⟨rfl, rfl, by decide, rfl, by norm_num⟩,
   iter_discrete_traces_empty_support dEmpty 2 rfl rfl (by decide) rfl (by norm_num)⟩

/-- The contents of a mutable site dictionary in the heap: plain fields plus
a reference to the site's mutable infer dictionary. -/
structure SiteObjD where
  name : String
  stype : String
  is_observed : Bool
  fn : PDist
  value : Option Val
  inferRef : Nat

/-- A heap object: a site dictionary or an infer dictionary. -/
inductive HObj where
  | site (s : SiteObjD)
  | inferD (d : Infer)

/-- A store of mutable Python dictionary objects, addressed by references
below the allocation counter `next`. -/
structure Store where
  mem : List (Nat × HObj)
  next : Nat

/-- Read the object at a reference. -/
def Store.lookup (st : Store) (r : Nat) : Option HObj :=
  (st.mem.find? (fun p => p.1 == r)).map (fun p => p.2)

/-- Allocate a fresh object, returning the new store and its reference. -/
def Store.alloc (st : Store) (o : HObj) : Store × Nat :=
  ({ mem := (st.next, o) :: st.mem, next := st.next + 1 }, st.next)

/-- Mutate the object at a reference (a Python dictionary update in place). -/
def Store.write (st : Store) (r : Nat) (o : HObj) : Store :=
  { mem := st.mem.map (fun p => if p.1 == r then (r, o) else p), next := st.next }

/-- A trace under object semantics: the ordered site-dictionary references. -/
abbrev TraceR := List Nat

/-- Modelled from the spec: copying one site dictionary during `Trace.copy`
(`Trace` is not under `src/`): per sections 3 and 4.2 the structural copy
shares no mutable state with the original, so the site dictionary and its
infer dictionary are both copied into fresh objects. -/
def copySiteObj (st : Store) (r : Nat) : Store × Nat :=
  match st.lookup r with
  | some (HObj.site s) =>
    match st.lookup s.inferRef with
    | some (HObj.inferD d) =>
      let p1 := st.alloc (HObj.inferD d)
      let p2 := p1.1.alloc (HObj.site { s with inferRef := p1.2 })
      (p2.1, p2.2)
    | _ => st.alloc (HObj.site s)
  | _ => st.alloc (HObj.inferD [])

/-- Modelled from the spec: `Trace.copy` — a new trace whose site list is an
independent structural copy of the original's. -/
def traceCopy : Store → TraceR → Store × TraceR
  | st, [] => (st, [])
  | st, r :: rs =>
    let p1 := copySiteObj st r
    let p2 := traceCopy p1.1 rs
    (p2.1, p1.2 :: p2.2)

/-- The loop body of `iter_discrete_extend` under explicit Python object
semantics: for each support value, in order, allocate the copied infer
dictionary extended with `_enum_total` (the source's `site["infer"].copy()`
followed by the `_enum_total` assignment), allocate the copied site
dictionary with the support value (the source's `site.copy()` and `value`
assignment), copy the accumulated trace, and append the new site
reference under the site's name. -/
def extendGo (s : SiteObjD) (inf : Infer) (n : Nat) (tr : TraceR) :
    Store → List Val → Store × List TraceR
  | st, [] => (st, [])
  | st, v :: vs =>
    let p1 := st.alloc (HObj.inferD (dictSet inf totalKey (PyVal.int (Int.ofNat n))))
    let p2 := p1.1.alloc (HObj.site { s with inferRef := p1.2, value := some v })
    let p3 := traceCopy p2.1 tr
    let p4 := extendGo s inf n tr p3.1 vs
    (p4.1, (p3.2 ++ [p2.2]) :: p4.2)

/-- `iter_discrete_extend` under explicit Python object semantics: read the
suspended site dictionary and its infer dictionary, enumerate the support
with the site's expand directive, and fork once per support value. -/
def iter_discrete_extend_st (st : Store) (tr : TraceR) (siteR : Nat) :
    Store × List TraceR :=
  match st.lookup siteR with
  | some (HObj.site s) =>
    match st.lookup s.inferRef with
    | some (HObj.inferD inf) =>
      extendGo s inf (s.fn.enumerate_support (dictGetD inf expandKey EXPAND_DEFAULT)).length
        tr st (s.fn.enumerate_support (dictGetD inf expandKey EXPAND_DEFAULT))
    | _ => (st, [])
  | _ => (st, [])

/-- The observable content of a site: every field of the site dictionary
with the infer reference dereferenced to the infer dictionary's contents. -/
structure SiteView where
  name : String
  stype : String
  is_observed : Bool
  fn : PDist
  value : Option Val
  infer : Option Infer

/-- Dereference a site reference to its observable content. -/
def viewSite (st : Store) (r : Nat) : Option SiteView :=
  match st.lookup r with
  | some (HObj.site s) =>
    some { name := s.name, stype := s.stype, is_observed := s.is_observed, fn := s.fn,
           value := s.value,
           infer := match st.lookup s.inferRef with
                    | some (HObj.inferD d) => some d
                    | _ => Option.none }
  | _ => Option.none

/-- The observable content of a whole trace. -/
def viewTrace (st : Store) (tr : TraceR) : List (Option SiteView) :=
  tr.map (viewSite st)

/-- The mutable cells reachable from a trace: its site dictionaries and
their infer dictionaries. -/
def inReach (st : Store) (tr : TraceR) (x : Nat) : Prop :=
  x ∈ tr ∨ ∃ r ∈ tr, ∃ s, st.lookup r = some (HObj.site s) ∧ x = s.inferRef

/-- A well-formed site reference: allocated, resolving to a site dictionary
whose infer reference resolves to an infer dictionary, both below `next`. -/
def validSiteRef (st : Store) (r : Nat) : Prop :=
  ∃ s d, st.lookup r = some (HObj.site s) ∧ st.lookup s.inferRef = some (HObj.inferD d) ∧
    r < st.next ∧ s.inferRef < st.next

/-- A well-formed trace: every site reference is well-formed. -/
def validTrace (st : Store) (tr : TraceR) : Prop :=
  ∀ r ∈ tr, validSiteRef st r

/-- All cells reachable from a trace lie in the half-open interval. -/
def reachBounded (st : Store) (tr : TraceR) (lo hi : Nat) : Prop :=
  ∀ r ∈ tr, ∃ s, st.lookup r = some (HObj.site s) ∧
    lo ≤ r ∧ r < hi ∧ lo ≤ s.inferRef ∧ s.inferRef < hi

/-- The forks occupy consecutive disjoint intervals of the store. -/
def ForksSeparated (st : Store) : List TraceR → Nat → Nat → Prop
  | [], lo, hi => lo ≤ hi
  | f :: fs, lo, hi =>
    ∃ mid, lo ≤ mid ∧ mid ≤ hi ∧ reachBounded st f lo mid ∧ ForksSeparated st fs mid hi

/-- Writing one cell leaves every other cell unchanged. -/
theorem lookup_write_ne (st : Store) (r q : Nat) (o : HObj) (h : q ≠ r) :
    (st.write r o).lookup q = st.lookup q := by
  show ((st.mem.map (fun p => if p.1 == r then (r, o) else p)).find?
      (fun p => p.1 == q)).map (fun p => p.2) =
    (st.mem.find? (fun p => p.1 == q)).map (fun p => p.2)
  induction st.mem with
  | nil => rfl
  | cons p rest ih =>
    rw [List.map_cons]
    by_cases h1 : p.1 = r
    · rw [List.find?_cons_of_neg _ (by simp [h1, Ne.symm h]),
        List.find?_cons_of_neg _ (by simp [h1, Ne.symm h])]
      exact ih
    · rw [show (if p.1 == r then (r, o) else p) = p from by simp [h1]]
      by_cases h2 : p.1 = q
      · rw [List.find?_cons_of_pos _ (by simp [h2]), List.find?_cons_of_pos _ (by simp [h2])]
      · rw [List.find?_cons_of_neg _ (by simp [h2]), List.find?_cons_of_neg _ (by simp [h2])]
        exact ih

/-- Allocation leaves cells below the allocation counter unchanged. -/
theorem alloc_lookup_lt (st : Store) (o : HObj) (q : Nat) (h : q < st.next) :
    (st.alloc o).1.lookup q = st.lookup q := by
  have hne : (st.next == q) = false := beq_eq_false_iff_ne.mpr (by omega)
  show ((((st.next, o) :: st.mem).find? (fun p => p.1 == q)).map (fun p => p.2)) =
    st.lookup q
  simp only [List.find?_cons, hne, if_false]
  rfl

/-- The freshly allocated cell holds the allocated object. -/
theorem alloc_lookup_self (st : Store) (o : HObj) :
    (st.alloc o).1.lookup st.next = some o := by
  show ((((st.next, o) :: st.mem).find? (fun p => p.1 == st.next)).map (fun p => p.2)) = some o
  simp [List.find?_cons]

/-- Well-formedness of a site reference transfers to any store extension
that preserves the cells below the old counter. -/
theorem validSiteRef_mono (st st2 : Store) (r : Nat) (hn : st.next ≤ st2.next)
    (hpres : ∀ q, q < st.next → st2.lookup q = st.lookup q)
    (h : validSiteRef st r) : validSiteRef st2 r := by
  obtain ⟨s, d, h1, h2, h3, h4⟩ := h
  refine ⟨s, d, ?_, ?_, by omega, by omega⟩
  · rw [hpres r h3]
    exact h1
  · rw [hpres s.inferRef h4]
    exact h2

/-- Well-formedness of a trace transfers to store extensions. -/
theorem validTrace_mono (st st2 : Store) (tr : TraceR) (hn : st.next ≤ st2.next)
    (hpres : ∀ q, q < st.next → st2.lookup q = st.lookup q)
    (h : validTrace st tr) : validTrace st2 tr :=
  fun r hr => validSiteRef_mono st st2 r hn hpres (h r hr)

/-- Every cell reachable from an interval-bounded trace lies in the
interval. -/
theorem inReach_bounds (st : Store) (f : TraceR) (lo hi : Nat)
    (h : reachBounded st f lo hi) (x : Nat) (hx : inReach st f x) :
    lo ≤ x ∧ x < hi := by
  rcases hx with hx | ⟨r, hr, s, hls, rfl⟩
  · obtain ⟨s, _, h1, h2, _, _⟩ := h x hx
    exact ⟨h1, h2⟩
  · obtain ⟨s2, hls2, _, _, h4, h5⟩ := h r hr
    have heq : s2 = s := by
      have := hls2.symm.trans hls
      simpa using this
    subst heq
    exact ⟨h4, h5⟩

/-- Every cell reachable from a well-formed pre-existing trace lies below
the old allocation counter, also in an extended store. -/
theorem inReach_old_lt (st st2 : Store) (tr : TraceR) (x : Nat)
    (hv : validTrace st tr)
    (hpres : ∀ q, q < st.next → st2.lookup q = st.lookup q)
    (hx : inReach st2 tr x) : x < st.next := by
  rcases hx with hx | ⟨r, hr, s, hls, rfl⟩
  · obtain ⟨s, d, _, _, h3, _⟩ := hv x hx
    exact h3
  · obtain ⟨s2, d, h1, h2, h3, h4⟩ := hv r hr
    rw [hpres r h3, h1] at hls
    have heq : s2 = s := by simpa using hls
    subst heq
    exact h4

/-- Every cell reachable from any fork of a separated fork list lies in the
overall interval. -/
theorem forksSep_lower (st : Store) : ∀ (fs : List TraceR) (lo hi : Nat),
    ForksSeparated st fs lo hi → ∀ (j : Nat) (fj : TraceR), fs[j]? = some fj →
    ∀ x, inReach st fj x → lo ≤ x ∧ x < hi := by
  intro fs
  induction fs with
  | nil =>
    intro lo hi h j fj hfj
    simp at hfj
  | cons f fs2 ih =>
    intro lo hi h j fj hfj x hx
    obtain ⟨mid, h1, h2, hrb, hsep⟩ := h
    cases j with
    | zero =>
      simp at hfj
      subst hfj
      have := inReach_bounds st f lo mid hrb x hx
      omega
    | succ j2 =>
      simp at hfj
      have := ih mid hi hsep j2 fj hfj x hx
      omega

/-- Distinct forks of a separated fork list reach disjoint cells. -/
theorem forksSep_disjoint (st : Store) : ∀ (fs : List TraceR) (lo hi : Nat),
    ForksSeparated st fs lo hi → ∀ (i j : Nat) (fi fj : TraceR),
    fs[i]? = some fi → fs[j]? = some fj →
    i ≠ j → ∀ x, inReach st fi x → ¬ inReach st fj x := by
  intro fs
  induction fs with
  | nil =>
    intro lo hi h i j fi fj hfi
    simp at hfi
  | cons f fs2 ih =>
    intro lo hi h i j fi fj hfi hfj hij x hx
    obtain ⟨mid, h1, h2, hrb, hsep⟩ := h
    cases i with
    | zero =>
      simp at hfi
      subst hfi
      cases j with
      | zero => exact absurd rfl hij
      | succ j2 =>
        simp at hfj
        intro hx2
        have hb1 := inReach_bounds st f lo mid hrb x hx
        have hb2 := forksSep_lower st fs2 mid hi hsep j2 fj hfj x hx2
        omega
    | succ i2 =>
      simp at hfi
      cases j with
      | zero =>
        simp at hfj
        subst hfj
        intro hx2
        have hb1 := forksSep_lower st fs2 mid hi hsep i2 fi hfi x hx
        have hb2 := inReach_bounds st f lo mid hrb x hx2
        omega
      | succ j2 =>
        simp at hfj
        exact ih mid hi hsep i2 j2 fi fj hfi hfj (by omega) x hx

/-- Writing a cell outside a site's reach leaves its view unchanged. -/
theorem viewSite_write_ne (st : Store) (r q : Nat) (o : HObj)
    (hq : q ≠ r) (hinf : ∀ s, st.lookup q = some (HObj.site s) → s.inferRef ≠ r) :
    viewSite (st.write r o) q = viewSite st q := by
  cases hl : st.lookup q with
  | none =>
    unfold viewSite
    rw [lookup_write_ne st r q o hq, hl]
  | some obj =>
    cases obj with
    | inferD d =>
      unfold viewSite
      rw [lookup_write_ne st r q o hq, hl]
    | site s =>
      unfold viewSite
      rw [lookup_write_ne st r q o hq, hl]
      show (some { name := s.name,
                   stype := s.stype,
                   is_observed := s.is_observed,
                   fn := s.fn,
                   value := s.value,
                   infer := (match (st.write r o).lookup s.inferRef with
                             | some (HObj.inferD d) => some d
                             | _ => Option.none) } : Option SiteView) =
        (some { name := s.name,
                stype := s.stype,
                is_observed := s.is_observed,
                fn := s.fn,
                value := s.value,
                infer := (match st.lookup s.inferRef with
                          | some (HObj.inferD d) => some d
                          | _ => Option.none) } : Option SiteView)
      rw [lookup_write_ne st r s.inferRef o (hinf s hl)]

/-- Writing a cell outside a trace's reach leaves its view unchanged. -/
theorem viewTrace_write_notReach (st : Store) (tr : TraceR) (r : Nat) (o : HObj)
    (h : ¬ inReach st tr r) :
    viewTrace (st.write r o) tr = viewTrace st tr := by
  unfold viewTrace
  apply List.map_congr_left
  intro q hq
  apply viewSite_write_ne
  · intro heq
    exact h (Or.inl (heq ▸ hq))
  · intro s hls hn
    exact h (Or.inr ⟨q, hq, s, hls, hn.symm⟩)

/-- Copying a well-formed site reference allocates the infer copy and then
the site copy. -/
theorem copySiteObj_spec (st : Store) (r : Nat) (s : SiteObjD) (d : Infer)
    (hls : st.lookup r = some (HObj.site s))
    (hld : st.lookup s.inferRef = some (HObj.inferD d)) :
    copySiteObj st r =
      ({ mem := (st.next + 1, HObj.site { s with inferRef := st.next }) ::
          (st.next, HObj.inferD d) :: st.mem,
         next := st.next + 2 }, st.next + 1) := by
  unfold copySiteObj
  simp only [hls, hld, Store.alloc]

/-- The structural trace copy preserves old cells and produces fresh,
interval-bounded site and infer cells. -/
theorem traceCopy_spec : ∀ (tr : TraceR) (st : Store), validTrace st tr →
    st.next ≤ (traceCopy st tr).1.next ∧
    (∀ q, q < st.next → (traceCopy st tr).1.lookup q = st.lookup q) ∧
    reachBounded (traceCopy st tr).1 (traceCopy st tr).2 st.next (traceCopy st tr).1.next := by
  intro tr
  induction tr with
  | nil =>
    intro st hv
    refine ⟨le_refl _, fun q _ => rfl, ?_⟩
    intro r hr
    simp [traceCopy] at hr
  | cons r rs ih =>
    intro st hv
    obtain ⟨s, d, hls, hld, hrlt, hilt⟩ := hv r (List.mem_cons_self r rs)
    have hcopy := copySiteObj_spec st r s d hls hld
    have h1next : (copySiteObj st r).1.next = st.next + 2 := by rw [hcopy]
    have h1ref : (copySiteObj st r).2 = st.next + 1 := by rw [hcopy]
    have h1pres : ∀ q, q < st.next → (copySiteObj st r).1.lookup q = st.lookup q := by
      intro q hq
      rw [hcopy]
      show ((((st.next + 1, HObj.site { s with inferRef := st.next }) ::
        (st.next, HObj.inferD d) :: st.mem).find? (fun p => p.1 == q)).map (fun p => p.2)) =
        st.lookup q
      rw [List.find?_cons_of_neg _ (by simp; omega), List.find?_cons_of_neg _ (by simp; omega)]
      rfl
    have h1site : (copySiteObj st r).1.lookup (st.next + 1) =
        some (HObj.site { s with inferRef := st.next }) := by
      rw [hcopy]
      show ((((st.next + 1, HObj.site { s with inferRef := st.next }) ::
        (st.next, HObj.inferD d) :: st.mem).find? (fun p => p.1 == st.next + 1)).map
          (fun p => p.2)) = _
      rw [List.find?_cons_of_pos _ (by simp)]
      rfl
    have hv1 : validTrace (copySiteObj st r).1 rs := by
      refine validTrace_mono st _ rs ?_ h1pres ?_
      · rw [h1next]
        omega
      · intro r2 hr2
        exact hv r2 (List.mem_cons_of_mem r hr2)
    obtain ⟨ihnext, ihpres, ihreach⟩ := ih (copySiteObj st r).1 hv1
    have hunfold : traceCopy st (r :: rs) =
        ((traceCopy (copySiteObj st r).1 rs).1,
         (copySiteObj st r).2 :: (traceCopy (copySiteObj st r).1 rs).2) := rfl
    rw [hunfold]
    refine ⟨?_, ?_, ?_⟩
    · calc st.next ≤ (copySiteObj st r).1.next := by rw [h1next]; omega
        _ ≤ _ := ihnext
    · intro q hq
      rw [ihpres q (by rw [h1next]; omega), h1pres q hq]
    · intro r2 hr2
      rcases List.mem_cons.mp hr2 with hb | hb
      · subst hb
        refine ⟨{ s with inferRef := st.next }, ?_, ?_, ?_, ?_, ?_⟩
        · rw [ihpres _ (by rw [h1ref, h1next]; omega), h1ref]
          exact h1site
        · rw [h1ref]
          omega
        · rw [h1ref]
          calc st.next + 1 < (copySiteObj st r).1.next := by rw [h1next]; omega
            _ ≤ _ := ihnext
        · exact le_refl _
        · show st.next < _
          calc st.next < (copySiteObj st r).1.next := by rw [h1next]; omega
            _ ≤ _ := ihnext
      · obtain ⟨s2, hs2, hb1, hb2, hb3, hb4⟩ := ihreach r2 hb
        refine ⟨s2, hs2, ?_, hb2, ?_, hb4⟩
        · rw [h1next] at hb1
          omega
        · rw [h1next] at hb3
          omega

/-- The store after allocating one fork's fresh infer and site dictionaries. -/
def extendStepStore (st : Store) (s : SiteObjD) (inf : Infer) (n : Nat) (v : Val) : Store :=
  ((st.alloc (HObj.inferD (dictSet inf totalKey (PyVal.int (Int.ofNat n))))).1.alloc
    (HObj.site { s with inferRef := st.next, value := some v })).1

/-- The extend loop preserves old cells and produces forks occupying
consecutive disjoint fresh intervals of the store. -/
theorem extendGo_spec (s : SiteObjD) (inf : Infer) (n : Nat) (tr : TraceR) :
    ∀ (vs : List Val) (st : Store), validTrace st tr →
    st.next ≤ (extendGo s inf n tr st vs).1.next ∧
    (∀ q, q < st.next → (extendGo s inf n tr st vs).1.lookup q = st.lookup q) ∧
    ForksSeparated (extendGo s inf n tr st vs).1 (extendGo s inf n tr st vs).2
      st.next (extendGo s inf n tr st vs).1.next := by
  intro vs
  induction vs with
  | nil =>
    intro st hv
    exact ⟨le_refl _, fun q _ => rfl, le_refl _⟩
  | cons v vs2 ih =>
    intro st hv
    have hunfold : extendGo s inf n tr st (v :: vs2) =
        ((extendGo s inf n tr (traceCopy (extendStepStore st s inf n v) tr).1 vs2).1,
         ((traceCopy (extendStepStore st s inf n v) tr).2 ++ [st.next + 1]) ::
           (extendGo s inf n tr (traceCopy (extendStepStore st s inf n v) tr).1 vs2).2) := rfl
    have hBnext : (extendStepStore st s inf n v).next = st.next + 2 := rfl
    have hBpres : ∀ q, q < st.next →
        (extendStepStore st s inf n v).lookup q = st.lookup q := by
      intro q hq
      show ((st.alloc (HObj.inferD (dictSet inf totalKey (PyVal.int (Int.ofNat n))))).1.alloc
        (HObj.site { s with inferRef := st.next, value := some v })).1.lookup q = st.lookup q
      rw [alloc_lookup_lt _ _ q (by show q < st.next + 1; omega),
        alloc_lookup_lt st _ q hq]
    have hBsite : (extendStepStore st s inf n v).lookup (st.next + 1) =
        some (HObj.site { s with inferRef := st.next, value := some v }) :=
      alloc_lookup_self (st.alloc (HObj.inferD (dictSet inf totalKey
        (PyVal.int (Int.ofNat n))))).1 _
    have hvB : validTrace (extendStepStore st s inf n v) tr := by
      refine validTrace_mono st _ tr ?_ hBpres hv
      rw [hBnext]
      omega
    obtain ⟨tcnext, tcpres, tcreach⟩ := traceCopy_spec tr (extendStepStore st s inf n v) hvB
    have hv3 : validTrace (traceCopy (extendStepStore st s inf n v) tr).1 tr :=
      validTrace_mono _ _ tr tcnext tcpres hvB
    obtain ⟨gnext, gpres, gsep⟩ := ih (traceCopy (extendStepStore st s inf n v) tr).1 hv3
    rw [hunfold]
    have hB3 : st.next + 2 ≤ (traceCopy (extendStepStore st s inf n v) tr).1.next := by
      rw [← hBnext]
      exact tcnext
    refine ⟨?_, ?_, ?_⟩
    · calc st.next ≤ (traceCopy (extendStepStore st s inf n v) tr).1.next := by omega
        _ ≤ _ := gnext
    · intro q hq
      rw [gpres q (by omega), tcpres q (by rw [hBnext]; omega), hBpres q hq]
    · refine ⟨(traceCopy (extendStepStore st s inf n v) tr).1.next, by omega, gnext, ?_, gsep⟩
      intro r2 hr2
      rcases List.mem_append.mp hr2 with hb | hb
      · obtain ⟨s2, hs2, hb1, hb2, hb3, hb4⟩ := tcreach r2 hb
        rw [hBnext] at hb1 hb3
        refine ⟨s2, ?_, by omega, hb2, by omega, hb4⟩
        rw [gpres r2 hb2]
        exact hs2
      · have hr2b : r2 = st.next + 1 := by simpa using hb
        subst hr2b
        refine ⟨{ s with inferRef := st.next, value := some v }, ?_, by omega, by omega, ?_, ?_⟩
        · rw [gpres _ (by omega), tcpres _ (by rw [hBnext]; omega)]
          exact hBsite
        · exact le_refl _
        · show st.next < _
          omega

/-- Claim C4: the traces yielded by one invocation of the extend generator
are structurally independent of each other, of the input trace and of the
original site dictionary: under explicit Python object semantics, mutating
any cell reachable from one yielded trace (a site dictionary or an infer
dictionary — hence any site value or infer entry) changes neither the
observable content of any sibling yielded trace, nor that of the input
trace, nor that of the original suspended site. -/
theorem iter_discrete_extend_st_independent (st : Store) (tr : TraceR) (siteR : Nat)
    (htr : validTrace st tr) (hsite : validSiteRef st siteR) :
    ∀ (i j : Nat) (fi fj : TraceR), i ≠ j →
      ((iter_discrete_extend_st st tr siteR).2)[i]? = some fi →
      ((iter_discrete_extend_st st tr siteR).2)[j]? = some fj →
      ∀ (x : Nat) (o : HObj), inReach (iter_discrete_extend_st st tr siteR).1 fi x →
        viewTrace (((iter_discrete_extend_st st tr siteR).1).write x o) fj =
          viewTrace (iter_discrete_extend_st st tr siteR).1 fj ∧
        viewTrace (((iter_discrete_extend_st st tr siteR).1).write x o) tr =
          viewTrace (iter_discrete_extend_st st tr siteR).1 tr ∧
        viewSite (((iter_discrete_extend_st st tr siteR).1).write x o) siteR =
          viewSite (iter_discrete_extend_st st tr siteR).1 siteR := by
  obtain ⟨s, d, hls, hld, hrlt, hilt⟩ := hsite
  have hred : iter_discrete_extend_st st tr siteR =
      extendGo s d (s.fn.enumerate_support (dictGetD d expandKey EXPAND_DEFAULT)).length tr st
        (s.fn.enumerate_support (dictGetD d expandKey EXPAND_DEFAULT)) := by
    unfold iter_discrete_extend_st
    simp only [hls, hld]
  rw [hred]
  obtain ⟨hnext, hpres, hsep⟩ := extendGo_spec s d
    (s.fn.enumerate_support (dictGetD d expandKey EXPAND_DEFAULT)).length tr
    (s.fn.enumerate_support (dictGetD d expandKey EXPAND_DEFAULT)) st htr
  intro i j fi fj hij hfi hfj x o hx
  have hxlo := (forksSep_lower _ _ _ _ hsep i fi hfi x hx).1
  refine ⟨?_, ?_, ?_⟩
  · apply viewTrace_write_notReach
    exact forksSep_disjoint _ _ _ _ hsep i j fi fj hfi hfj hij x hx
  · apply viewTrace_write_notReach
    intro hx2
    have hlt := inReach_old_lt st _ tr x htr hpres hx2
    omega
  · apply viewSite_write_ne
    · omega
    · intro s2 hls2
      rw [hpres siteR hrlt, hls] at hls2
      have heq : s = s2 := by simpa using hls2
      subst heq
      omega

/-- The site-dictionary contents of a suspended binary sample site. -/
def bernSiteObj : SiteObjD :=
  { name := aName, stype := sampleTag, is_observed := false, fn := bern,
    value := Option.none, inferRef := 0 }

/-- A concrete two-object store: one infer dictionary at 0, one site
dictionary at 1. -/
def st0 : Store :=
  { mem := [(0, HObj.inferD seqInfer), (1, HObj.site bernSiteObj)], next := 2 }

/-- Witness for claim C4: extending from the concrete store produces two
forks; mutating the first fork's site dictionary changes neither the second
fork, nor the (empty) input trace, nor the original site. -/
theorem iter_discrete_extend_st_independent_witness :
    validTrace st0 [] ∧ validSiteRef st0 1 ∧
    ((iter_discrete_extend_st st0 [] 1).2)[0]? = some [3] ∧
    ((iter_discrete_extend_st st0 [] 1).2)[1]? = some [5] ∧
    inReach (iter_discrete_extend_st st0 [] 1).1 [3] 3 ∧
    (viewTrace (((iter_discrete_extend_st st0 [] 1).1).write 3 (HObj.inferD [])) [5] =
      viewTrace (iter_discrete_extend_st st0 [] 1).1 [5] ∧
     viewTrace (((iter_discrete_extend_st st0 [] 1).1).write 3 (HObj.inferD [])) [] =
      viewTrace (iter_discrete_extend_st st0 [] 1).1 [] ∧
     viewSite (((iter_discrete_extend_st st0 [] 1).1).write 3 (HObj.inferD [])) 1 =
      viewSite (iter_discrete_extend_st st0 [] 1).1 1) := by
  have htr0 : validTrace st0 [] := by
    intro r hr
    simp at hr
  have hsite0 : validSiteRef st0 1 :=
    ⟨bernSiteObj, seqInfer, rfl, rfl, by decide, by decide⟩
  have hfi : ((iter_discrete_extend_st st0 [] 1).2)[0]? = some [3] := by decide
  have hfj : ((iter_discrete_extend_st st0 [] 1).2)[1]? = some [5] := by decide
  have hreach : inReach (iter_discrete_extend_st st0 [] 1).1 [3] 3 := Or.inl (by decide)
  have hmain := iter_discrete_extend_st_independent st0 [] 1 htr0 hsite0 0 1 [3] [5]
    (by decide) hfi hfj 3 (HObj.inferD []) hreach
  exact ⟨htr0, hsite0, hfi, hfj, hreach, hmain⟩
